import Mathlib

/-!
Verification development for the dora deposit indexer and beacon block cache.

The development shallowly embeds two subsystems of the repository:

* the fork-aware in-memory `blockCache` of the beacon indexer
  (`createOrGetBlock`, `getBlockByRoot`, `getBlocksBySlot`, `removeBlock`,
  `getCanonicalDistance`), and
* the `DepositIndexer` (finalized pass, recent/unfinalized pass, deposit
  signature validation, persistence with checkpoint advance).

Go maps are embedded as association lists, machine integers as `Nat` with
explicit `% 2^64` where overflow matters (and an explicit `int64` cast for
the cache's slot bounds), pointers to mutable `Block` instances as `Block`
values (the cache invariant that a root maps to at most one instance makes
value equality coincide with instance identity), and fallible external calls
as `Except`/`Option`-valued environment functions.
-/

/-! ## Association-list helpers (embedding of Go maps) -/

/-- Lookup in an association list: first binding wins (Go map lookup). -/
def lookupA {α : Type} : List (Nat × α) → Nat → Option α
  | [], _ => none
  | (k, v) :: rest, key => if k = key then some v else lookupA rest key

/-- Update/insert a binding (Go map assignment). -/
def setA {α : Type} : List (Nat × α) → Nat → α → List (Nat × α)
  | [], k, v => [(k, v)]
  | (k', v') :: rest, k, v =>
    if k' = k then (k, v) :: rest else (k', v') :: setA rest k v

/-- Delete a binding (Go `delete`). -/
def eraseA {α : Type} : List (Nat × α) → Nat → List (Nat × α)
  | [], _ => []
  | (k', v') :: rest, k => if k' = k then rest else (k', v') :: eraseA rest k

theorem lookupA_mem {α : Type} {l : List (Nat × α)} {k : Nat} {v : α}
    (h : lookupA l k = some v) : (k, v) ∈ l := by
  induction l with
  | nil => simp [lookupA] at h
  | cons kv rest ih =>
    obtain ⟨k', v'⟩ := kv
    by_cases hk : k' = k
    · subst hk
      simp [lookupA] at h
      subst h
      exact List.mem_cons_self _ _
    · simp [lookupA, hk] at h
      exact List.mem_cons_of_mem _ (ih h)

theorem lookupA_setA_self {α : Type} (l : List (Nat × α)) (k : Nat) (v : α) :
    lookupA (setA l k v) k = some v := by
  induction l with
  | nil => simp [setA, lookupA]
  | cons kv rest ih =>
    obtain ⟨k', v'⟩ := kv
    by_cases hk : k' = k
    · simp [setA, hk, lookupA]
    · simp [setA, hk, lookupA, ih]

theorem lookupA_setA_ne {α : Type} (l : List (Nat × α)) (k k' : Nat) (v : α)
    (h : k' ≠ k) : lookupA (setA l k v) k' = lookupA l k' := by
  have h' : ¬ k = k' := fun hh => h hh.symm
  induction l with
  | nil => simp [setA, lookupA, h']
  | cons kv rest ih =>
    obtain ⟨k0, v0⟩ := kv
    by_cases hk : k0 = k
    · subst hk
      simp [setA, lookupA, h']
    · by_cases hk' : k0 = k'
      · subst hk'
        simp [setA, lookupA, h]
      · simp [setA, hk, lookupA, hk', ih]

theorem lookupA_eraseA_ne {α : Type} (l : List (Nat × α)) (k k' : Nat)
    (h : k' ≠ k) : lookupA (eraseA l k) k' = lookupA l k' := by
  have h' : ¬ k = k' := fun hh => h hh.symm
  induction l with
  | nil => simp [eraseA]
  | cons kv rest ih =>
    obtain ⟨k0, v0⟩ := kv
    by_cases hk : k0 = k
    · subst hk
      simp [eraseA, lookupA, h']
    · by_cases hk' : k0 = k'
      · subst hk'
        simp [eraseA, lookupA, h]
      · simp [eraseA, hk, lookupA, hk', ih]

theorem lookupA_eq_none_of_not_mem_keys {α : Type} {l : List (Nat × α)} {k : Nat}
    (h : k ∉ l.map Prod.fst) : lookupA l k = none := by
  induction l with
  | nil => simp [lookupA]
  | cons kv rest ih =>
    obtain ⟨k0, v0⟩ := kv
    rw [List.map_cons, List.mem_cons] at h
    push_neg at h
    simp [lookupA, Ne.symm h.1, ih h.2]

theorem lookupA_eraseA_self {α : Type} (l : List (Nat × α)) (k : Nat)
    (hnd : (l.map Prod.fst).Nodup) : lookupA (eraseA l k) k = none := by
  induction l with
  | nil => simp [eraseA, lookupA]
  | cons kv rest ih =>
    obtain ⟨k0, v0⟩ := kv
    rw [List.map_cons, List.nodup_cons] at hnd
    by_cases hk : k0 = k
    · subst hk
      simp only [eraseA, if_pos rfl]
      exact lookupA_eq_none_of_not_mem_keys hnd.1
    · simp [eraseA, hk, lookupA]
      exact ih hnd.2

/-! ## Beacon block cache (type `blockCache` of the beacon package) -/

/-- A beacon block root (a 32-byte hash, abstracted as `Nat`). -/
abbrev Root := Nat

/-- Embedding of the beacon `Block` entity: identity `root`/`slot` fixed at
creation, `parentRoot` populated lazily once the header is loaded
(`GetParentRoot` returns nil before that). A cache invariant guarantees one
instance per root, so value equality models Go pointer identity. -/
structure Block where
  root : Root
  slot : Nat
  parentRoot : Option Root
  deriving DecidableEq, Repr

/-- `newBlock`: fresh block with no header loaded yet. -/
def newBlock (root : Root) (slot : Nat) : Block :=
  { root := root, slot := slot, parentRoot := none }

/-- Go's `int64(x)` cast of a `uint64` value. -/
def int64OfNat (n : Nat) : Int :=
  if n % 2 ^ 64 < 2 ^ 63 then (n % 2 ^ 64 : Int) else (n % 2 ^ 64 : Int) - 2 ^ 64

/-- Embedding of `blockCache`: root index, per-slot buckets and the observed
slot bounds (`int64` fields in the source). -/
structure BlockCache where
  highestSlot : Int
  lowestSlot : Int
  rootMap : List (Root × Block)
  slotMap : List (Nat × List Block)
  deriving DecidableEq, Repr

/-- `newBlockCache`: Go zero-initializes `highestSlot`/`lowestSlot` to 0. -/
def newBlockCache : BlockCache :=
  { highestSlot := 0, lowestSlot := 0, rootMap := [], slotMap := [] }

/-- `getBlockByRoot`. -/
def getBlockByRoot (c : BlockCache) (root : Root) : Option Block :=
  lookupA c.rootMap root

/-- `getBlocksBySlot` (the source copies the bucket; the value is the same). -/
def getBlocksBySlot (c : BlockCache) (slot : Nat) : List Block :=
  match lookupA c.slotMap slot with
  | none => []
  | some bs => bs

/-- `createOrGetBlock`: idempotent insert, returns `(block, wasCreated)`
and the updated cache. Mirrors the source including the slot-bound updates
(`lowestSlot < 0 ||` guard included as written there). -/
def createOrGetBlock (c : BlockCache) (root : Root) (slot : Nat) :
    Block × Bool × BlockCache :=
  match lookupA c.rootMap root with
  | some b => (b, false, c)
  | none =>
    let cacheBlock := newBlock root slot
    let rootMap' := setA c.rootMap root cacheBlock
    let slotMap' :=
      match lookupA c.slotMap slot with
      | none => setA c.slotMap slot [cacheBlock]
      | some bs => setA c.slotMap slot (bs ++ [cacheBlock])
    let highest' :=
      if int64OfNat slot > c.highestSlot then int64OfNat slot else c.highestSlot
    let lowest' :=
      if c.lowestSlot < 0 ∨ int64OfNat slot < c.lowestSlot then int64OfNat slot
      else c.lowestSlot
    (cacheBlock, true,
      { highestSlot := highest', lowestSlot := lowest',
        rootMap := rootMap', slotMap := slotMap' })

/-- The cache's total tracked-block count (number of root-index entries). -/
def trackedBlockCount (c : BlockCache) : Nat :=
  c.rootMap.length

/-- Remove the first occurrence of a block from a bucket (the source's
index-based splice with `break`). -/
def removeFirst : List Block → Block → List Block
  | [], _ => []
  | b' :: rest, b => if b' = b then rest else b' :: removeFirst rest b

/-- The per-slot-bucket part of `removeBlock`: the bucket key is deleted
when the block is the bucket's only element, otherwise the first matching
entry is spliced out; an absent or non-containing bucket is left alone.
(`getBlocksBySlot c b.slot` is exactly the source's `slotBlocks` local.) -/
def removeBlockSlotMap (c : BlockCache) (b : Block) : List (Nat × List Block) :=
  if (getBlocksBySlot c b.slot).length = 1 ∧
      (getBlocksBySlot c b.slot).head? = some b then
    eraseA c.slotMap b.slot
  else if (getBlocksBySlot c b.slot).length > 1 then
    setA c.slotMap b.slot (removeFirst (getBlocksBySlot c b.slot) b)
  else c.slotMap

/-- `removeBlock`: delete from the root index and from the per-slot bucket. -/
def removeBlock (c : BlockCache) (b : Block) : BlockCache :=
  { c with
    rootMap := eraseA c.rootMap b.root
    slotMap := removeBlockSlotMap c b }

/-! ### C4: createOrGetBlock is an idempotent insert -/

theorem createOrGetBlock_existing {c : BlockCache} {root : Root} {b : Block}
    (slot : Nat) (h : getBlockByRoot c root = some b) :
    createOrGetBlock c root slot = (b, false, c) := by
  unfold getBlockByRoot at h
  unfold createOrGetBlock
  rw [h]

theorem createOrGetBlock_lookup (c : BlockCache) (root : Root) (slot : Nat) :
    getBlockByRoot (createOrGetBlock c root slot).2.2 root =
      some (createOrGetBlock c root slot).1 := by
  unfold createOrGetBlock getBlockByRoot
  cases h : lookupA c.rootMap root with
  | some b => simp [h]
  | none => simp [h, lookupA_setA_self]

/-- C4: `createOrGetBlock` is an idempotent insert: a second call with the
same root (any slot) returns the identical `Block` instance created by the
first call, reports `wasCreated = false`, leaves the cache (hence the
instance and the tracked-block count) unchanged. -/
theorem c4_createOrGetBlock_idempotent (c : BlockCache) (root : Root)
    (s₁ s₂ : Nat) :
    createOrGetBlock (createOrGetBlock c root s₁).2.2 root s₂ =
      ((createOrGetBlock c root s₁).1, false, (createOrGetBlock c root s₁).2.2) ∧
    getBlockByRoot (createOrGetBlock (createOrGetBlock c root s₁).2.2 root s₂).2.2
        root = some (createOrGetBlock c root s₁).1 ∧
    trackedBlockCount (createOrGetBlock (createOrGetBlock c root s₁).2.2 root s₂).2.2 =
      trackedBlockCount (createOrGetBlock c root s₁).2.2 := by
  have hl := createOrGetBlock_lookup c root s₁
  have h2 : createOrGetBlock (createOrGetBlock c root s₁).2.2 root s₂ =
      ((createOrGetBlock c root s₁).1, false, (createOrGetBlock c root s₁).2.2) :=
    createOrGetBlock_existing s₂ hl
  refine ⟨h2, ?_, ?_⟩ <;> rw [h2]
  · exact hl

/-! ### C8: slot bounds maintained by createOrGetBlock -/

/-- C8 evaluation: inserting a block at slot 5 into a fresh cache leaves
`lowestSlot = 0` (the `lowestSlot < 0` reset guard can never fire because the
constructor zero-initializes the field), while `highestSlot` becomes 5. The
minimum inserted slot is 5, so `lowestSlot` does not track it. -/
theorem c8_lowestSlot_not_min :
    ((createOrGetBlock newBlockCache 7 5).2.2.lowestSlot = 0 ∧
      (createOrGetBlock newBlockCache 7 5).2.2.highestSlot = 5) ∧
    ¬ (createOrGetBlock newBlockCache 7 5).2.2.lowestSlot = 5 := by
  constructor
  · constructor <;> decide
  · decide

/-! ### C2: getCanonicalDistance -/

/-- The loop of `getCanonicalDistance`, fuel-indexed. The Go loop has no
fuel; the wrapper below supplies `head.slot + 1` units, which is enough for
every slot-monotone cache (each hop strictly decreases the current slot), so
the fuel branch is unreachable there and the embedding agrees with the
source wherever the source terminates. -/
def getCanonicalDistanceLoop (c : BlockCache) (blockRoot : Root)
    (blockSlot maxDistance : Nat) : Nat → Block → Nat → Bool × Nat
  | 0, _, _ => (false, 0)
  | fuel + 1, canonicalBlock, distance =>
    if canonicalBlock.slot < blockSlot then (false, 0)
    else
      match canonicalBlock.parentRoot with
      | none => (false, 0)
      | some parentRoot =>
        if maxDistance > 0 ∧ distance + 1 > maxDistance then (false, 0)
        else if parentRoot = blockRoot then (true, distance + 1)
        else
          match getBlockByRoot c parentRoot with
          | none => (false, 0)
          | some next =>
            getCanonicalDistanceLoop c blockRoot blockSlot maxDistance fuel
              next (distance + 1)

/-- `getCanonicalDistance`: returns whether `blockRoot` is canonical with
respect to `head` and the hop distance. `maxDistance = 0` means unbounded. -/
def getCanonicalDistance (c : BlockCache) (blockRoot head : Root)
    (maxDistance : Nat) : Bool × Nat :=
  match getBlockByRoot c blockRoot with
  | none => (false, 0)
  | some block =>
    match getBlockByRoot c head with
    | none => (false, 0)
    | some canonicalBlock =>
      if canonicalBlock.root = blockRoot then (true, 0)
      else
        getCanonicalDistanceLoop c blockRoot block.slot maxDistance
          (canonicalBlock.slot + 1) canonicalBlock 0

/-- `isCanonicalBlock` (unbounded canonical check). -/
def isCanonicalBlock (c : BlockCache) (blockRoot head : Root) : Bool :=
  (getCanonicalDistance c blockRoot head 0).1

/-- `r` is an ancestor of `h` reachable by exactly `d` parent-root hops:
each hop reads the cached block of the current root and follows its
`parentRoot` link. -/
inductive hopsTo (c : BlockCache) : Root → Root → Nat → Prop
  | refl (r : Root) : hopsTo c r r 0
  | step {h p r : Root} {b : Block} {d : Nat} :
      getBlockByRoot c h = some b → b.parentRoot = some p →
      hopsTo c p r d → hopsTo c h r (d + 1)

/-- Parent-hop reachability starting from a block instance (at least one
hop; the final hop may land on a root that is merely named by a parent
link). -/
inductive blockHops (c : BlockCache) : Block → Root → Nat → Prop
  | last {b : Block} {p : Root} : b.parentRoot = some p → blockHops c b p 1
  | step {b : Block} {p : Root} {b' : Block} {r : Root} {k : Nat} :
      b.parentRoot = some p → getBlockByRoot c p = some b' →
      blockHops c b' r k → blockHops c b r (k + 1)

/-- The parent chain from a root down to a root `q`, listing the visited
roots (excluding `q`). -/
inductive chainTo (c : BlockCache) : Root → List Root → Root → Prop
  | nil (r : Root) : chainTo c r [] r
  | cons {h p q : Root} {b : Block} {l : List Root} :
      getBlockByRoot c h = some b → b.parentRoot = some p →
      chainTo c p l q → chainTo c h (h :: l) q

/-- Cache well-formedness used by the canonical-distance analysis: every
cached parent link points to a block of strictly smaller slot. -/
def slotMonotoneB (c : BlockCache) : Bool :=
  c.rootMap.all fun kb =>
    match (kb.2).parentRoot with
    | none => true
    | some p =>
      match getBlockByRoot c p with
      | none => true
      | some bp => decide (bp.slot < (kb.2).slot)

theorem getBlockByRoot_mem {c : BlockCache} {p : Root} {b : Block}
    (h : getBlockByRoot c p = some b) : (p, b) ∈ c.rootMap :=
  lookupA_mem h

theorem slotMonotoneB_spec {c : BlockCache} (hmono : slotMonotoneB c = true)
    {k : Root} {b : Block} (hmem : (k, b) ∈ c.rootMap) {p : Root} {bp : Block}
    (hp : b.parentRoot = some p) (hbp : getBlockByRoot c p = some bp) :
    bp.slot < b.slot := by
  have h := List.all_eq_true.mp hmono (k, b) hmem
  simp only [hp, hbp] at h
  exact of_decide_eq_true h

theorem blockHops_slot_lt {c : BlockCache} (hmono : slotMonotoneB c = true) :
    ∀ {cb : Block} {r : Root} {d : Nat}, blockHops c cb r d →
      ∀ {rb : Block}, getBlockByRoot c r = some rb →
      (∃ k, (k, cb) ∈ c.rootMap) → rb.slot < cb.slot := by
  intro cb r d hh
  induction hh with
  | @last b p hp =>
    intro rb hr hmem
    obtain ⟨k0, hmem⟩ := hmem
    exact slotMonotoneB_spec hmono hmem hp hr
  | @step b p b' r' k hp hl hh' ih =>
    intro rb hr hmem
    obtain ⟨k0, hmem⟩ := hmem
    have h1 : rb.slot < b'.slot := ih hr ⟨p, getBlockByRoot_mem hl⟩
    have h2 : b'.slot < b.slot := slotMonotoneB_spec hmono hmem hp hl
    omega

theorem getCanonicalDistanceLoop_sound (c : BlockCache) (r : Root)
    (rs M : Nat) :
    ∀ fuel (cb : Block) (dist out : Nat),
      getCanonicalDistanceLoop c r rs M fuel cb dist = (true, out) →
      dist + 1 ≤ out ∧ blockHops c cb r (out - dist) ∧ (M = 0 ∨ out ≤ M) := by
  intro fuel
  induction fuel with
  | zero =>
    intro cb dist out h
    simp [getCanonicalDistanceLoop] at h
  | succ fuel ih =>
    intro cb dist out h
    simp only [getCanonicalDistanceLoop] at h
    by_cases h1 : cb.slot < rs
    · rw [if_pos h1] at h
      simp at h
    · rw [if_neg h1] at h
      cases hp : cb.parentRoot with
      | none =>
        rw [hp] at h
        dsimp only at h
        simp at h
      | some p =>
        rw [hp] at h
        dsimp only at h
        by_cases h2 : M > 0 ∧ dist + 1 > M
        · rw [if_pos h2] at h
          simp at h
        · rw [if_neg h2] at h
          by_cases h3 : p = r
          · rw [if_pos h3] at h
            have hout : dist + 1 = out := by
              simpa using congrArg Prod.snd h
            subst h3
            refine ⟨by omega, ?_, by omega⟩
            rw [show out - dist = 1 by omega]
            exact blockHops.last hp
          · rw [if_neg h3] at h
            cases hl : getBlockByRoot c p with
            | none =>
              rw [hl] at h
              dsimp only at h
              simp at h
            | some next =>
              rw [hl] at h
              dsimp only at h
              obtain ⟨ho, hb, hm⟩ := ih next (dist + 1) out h
              refine ⟨by omega, ?_, hm⟩
              rw [show out - dist = (out - (dist + 1)) + 1 by omega]
              exact blockHops.step hp hl hb

theorem getCanonicalDistanceLoop_complete {c : BlockCache} (M : Nat)
    (hmono : slotMonotoneB c = true) :
    ∀ {cb : Block} {r : Root} {d : Nat}, blockHops c cb r d →
      ∀ {rb : Block}, getBlockByRoot c r = some rb →
      ∀ dist fuel, (∃ k, (k, cb) ∈ c.rootMap) → (M = 0 ∨ dist + d ≤ M) →
      cb.slot < fuel →
      getCanonicalDistanceLoop c r rb.slot M fuel cb dist = (true, dist + d) := by
  intro cb r d hh
  induction hh with
  | @last b p hp =>
    intro rb hr dist fuel hmem hM hf
    obtain ⟨fuel, rfl⟩ : ∃ f, fuel = f + 1 := ⟨fuel - 1, by omega⟩
    have hslot : rb.slot < b.slot :=
      blockHops_slot_lt hmono (blockHops.last hp) hr hmem
    simp only [getCanonicalDistanceLoop]
    rw [if_neg (by omega : ¬ b.slot < rb.slot), hp]
    dsimp only
    rw [if_neg (by omega : ¬ (M > 0 ∧ dist + 1 > M)), if_pos rfl]
  | @step b p b' r' k hp hl hh' ih =>
    intro rb hr dist fuel hmem hM hf
    obtain ⟨fuel, rfl⟩ : ∃ f, fuel = f + 1 := ⟨fuel - 1, by omega⟩
    have hslot : rb.slot < b.slot :=
      blockHops_slot_lt hmono (blockHops.step hp hl hh') hr hmem
    obtain ⟨k0, hmem0⟩ := hmem
    have hslot' : b'.slot < b.slot := slotMonotoneB_spec hmono hmem0 hp hl
    have hpr : ¬ p = r' := by
      intro he
      subst he
      have hbrb : b' = rb := by
        have := hl.symm.trans hr
        simpa using this
      subst hbrb
      have := blockHops_slot_lt hmono hh' hr ⟨p, getBlockByRoot_mem hl⟩
      omega
    simp only [getCanonicalDistanceLoop]
    rw [if_neg (by omega : ¬ b.slot < rb.slot), hp]
    dsimp only
    rw [if_neg (by omega : ¬ (M > 0 ∧ dist + 1 > M)), if_neg hpr, hl]
    dsimp only
    rw [show dist + (k + 1) = (dist + 1) + k by omega]
    exact ih hr (dist + 1) fuel ⟨p, getBlockByRoot_mem hl⟩ (by omega) (by omega)

theorem blockHops_hopsTo {c : BlockCache} {b : Block} {r : Root} {d : Nat} :
    blockHops c b r d → ∀ h, getBlockByRoot c h = some b → hopsTo c h r d := by
  intro hh
  induction hh with
  | @last b p hp =>
    intro h hl
    exact hopsTo.step hl hp (hopsTo.refl p)
  | @step b p b' r' k hp hl' hh' ih =>
    intro h hl
    exact hopsTo.step hl hp (ih p hl')

theorem hopsTo_blockHops {c : BlockCache} {h r : Root} {d : Nat} :
    hopsTo c h r d → 1 ≤ d → ∀ b, getBlockByRoot c h = some b →
      blockHops c b r d := by
  intro hh
  induction hh with
  | refl r0 =>
    intro h1
    omega
  | @step h0 p r0 b0 d0 hl0 hp0 hh' ih =>
    intro _ b hl
    have hb : b0 = b := by
      have := hl0.symm.trans hl
      simpa using this
    subst hb
    cases hh' with
    | refl =>
      exact blockHops.last hp0
    | @step p1 p2 r1 b1 d1 hl1 hp1 hh'' =>
      have := ih (by omega) b1 hl1
      exact blockHops.step hp0 hl1 this

theorem chainTo_missing_no_hops {c : BlockCache} {r : Root} :
    ∀ {h : Root} {qs : List Root} {q : Root}, chainTo c h qs q →
      (∀ x ∈ qs, x ≠ r) → q ≠ r →
      (getBlockByRoot c q = none ∨
        ∃ b, getBlockByRoot c q = some b ∧ b.parentRoot = none) →
      ∀ d, ¬ hopsTo c h r d := by
  intro h qs q hch
  induction hch with
  | nil r0 =>
    intro _ hqr hmiss d hh
    cases hh with
    | refl => exact hqr rfl
    | @step _ p0 _ b0 d0 hl hp hh0 =>
      rcases hmiss with hnone | ⟨b, hb, hpn⟩
      · rw [hl] at hnone
        exact Option.noConfusion hnone
      · rw [hl] at hb
        injection hb with hbe
        subst hbe
        rw [hp] at hpn
        exact Option.noConfusion hpn
  | @cons h0 p q0 b l hl hp hch' ih =>
    intro hqs hqr hmiss d hh
    have hhr : h0 ≠ r := hqs h0 (List.mem_cons_self _ _)
    cases hh with
    | @step _ p2 _ b2 d2 hl2 hp2 hh2 =>
      have hb : b2 = b := by
        have := hl2.symm.trans hl
        simpa using this
      subst hb
      have hp' : p2 = p := by
        have := hp2.symm.trans hp
        simpa using this
      subst hp'
      exact ih (fun x hx => hqs x (List.mem_cons_of_mem _ hx)) hqr hmiss d2 hh2
    | refl => exact hhr rfl

theorem getCanonicalDistance_true {c : BlockCache} {r head : Root} {M d : Nat}
    (hkeys : ∀ kb ∈ c.rootMap, (kb.2).root = kb.1)
    (h : getCanonicalDistance c r head M = (true, d)) :
    hopsTo c head r d ∧ (M = 0 ∨ d ≤ M) := by
  unfold getCanonicalDistance at h
  cases hr : getBlockByRoot c r with
  | none =>
    rw [hr] at h
    dsimp only at h
    simp at h
  | some rb =>
    rw [hr] at h
    dsimp only at h
    cases hh : getBlockByRoot c head with
    | none =>
      rw [hh] at h
      dsimp only at h
      simp at h
    | some hb =>
      rw [hh] at h
      dsimp only at h
      by_cases he : hb.root = r
      · rw [if_pos he] at h
        have hd : d = 0 := by
          simpa using (congrArg Prod.snd h).symm
        subst hd
        have hbr : hb.root = head := hkeys (head, hb) (getBlockByRoot_mem hh)
        have hhr : head = r := by rw [← hbr, he]
        subst hhr
        exact ⟨hopsTo.refl head, by omega⟩
      · rw [if_neg he] at h
        obtain ⟨h1, h2, h3⟩ :=
          getCanonicalDistanceLoop_sound c r rb.slot M (hb.slot + 1) hb 0 d h
        rw [Nat.sub_zero] at h2
        exact ⟨blockHops_hopsTo h2 head hh, h3⟩

/-- C2: for cached roots `r` and `head` (in a well-keyed, slot-monotone
cache), `getCanonicalDistance r head M` returns `(true, d)` iff `r` is an
ancestor of `head` reachable by exactly `d` parent-root hops (cut off beyond
`M` hops when `M > 0`; `M = 0` is unbounded); it reports not-canonical
whenever `r`'s slot exceeds `head`'s slot, and whenever the parent chain
from `head` hits a missing parent link (block absent from the cache, or
header not loaded) before reaching `r`. -/
theorem c2_getCanonicalDistance (c : BlockCache) (r head : Root)
    (rb hb : Block)
    (hkeys : ∀ kb ∈ c.rootMap, (kb.2).root = kb.1)
    (hmono : slotMonotoneB c = true)
    (hr : getBlockByRoot c r = some rb)
    (hh : getBlockByRoot c head = some hb) :
    (∀ M d, getCanonicalDistance c r head M = (true, d) ↔
        (hopsTo c head r d ∧ (M = 0 ∨ d ≤ M)))
    ∧ (rb.slot > hb.slot → ∀ M, (getCanonicalDistance c r head M).1 = false)
    ∧ (∀ qs q, chainTo c head qs q → (∀ x ∈ qs, x ≠ r) → q ≠ r →
        (getBlockByRoot c q = none ∨
          ∃ b, getBlockByRoot c q = some b ∧ b.parentRoot = none) →
        ∀ M, (getCanonicalDistance c r head M).1 = false) := by
  have hbr : hb.root = head := hkeys (head, hb) (getBlockByRoot_mem hh)
  refine ⟨fun M d => ⟨fun h => getCanonicalDistance_true hkeys h, ?_⟩, ?_, ?_⟩
  · rintro ⟨hhop, hM⟩
    unfold getCanonicalDistance
    rw [hr, hh]
    dsimp only
    by_cases he : hb.root = r
    · rw [if_pos he]
      have hhr : head = r := by rw [← hbr, he]
      subst hhr
      have hd : d = 0 := by
        by_contra hd0
        have hbh := hopsTo_blockHops hhop (by omega) rb hr
        have := blockHops_slot_lt hmono hbh hr ⟨head, getBlockByRoot_mem hr⟩
        omega
      subst hd
      rfl
    · rw [if_neg he]
      have hhr : head ≠ r := by rw [← hbr]; exact he
      have hd : 1 ≤ d := by
        by_contra hd0
        have : d = 0 := by omega
        subst this
        cases hhop with
        | refl => exact hhr rfl
      have hbh := hopsTo_blockHops hhop hd hb hh
      have := getCanonicalDistanceLoop_complete M hmono hbh hr 0 (hb.slot + 1)
        ⟨head, getBlockByRoot_mem hh⟩ (by omega) (by omega)
      simpa using this
  · intro hgt M
    have he : ¬ hb.root = r := by
      intro he
      have hhr : head = r := by rw [← hbr, he]
      subst hhr
      have : hb = rb := by
        have := hh.symm.trans hr
        simpa using this
      subst this
      omega
    unfold getCanonicalDistance
    rw [hr, hh]
    dsimp only
    rw [if_neg he]
    simp only [getCanonicalDistanceLoop]
    rw [if_pos (by omega : hb.slot < rb.slot)]
  · intro qs q hch hqs hqr hmiss M
    cases hres : (getCanonicalDistance c r head M).1 with
    | false => rfl
    | true =>
      have hfull : getCanonicalDistance c r head M =
          (true, (getCanonicalDistance c r head M).2) := by
        rw [← hres]
      obtain ⟨hhop, -⟩ := getCanonicalDistance_true hkeys hfull
      exact absurd hhop
        (chainTo_missing_no_hops hch hqs hqr hmiss _)

/-- A concrete three-block chain used to witness `c2_getCanonicalDistance`. -/
def c2WitnessCache : BlockCache :=
  { highestSlot := 0, lowestSlot := 0,
    rootMap :=
      [(1, { root := 1, slot := 10, parentRoot := some 2 }),
       (2, { root := 2, slot := 5, parentRoot := some 3 }),
       (3, { root := 3, slot := 1, parentRoot := none })],
    slotMap := [] }

theorem c2_getCanonicalDistance_witness :
    getCanonicalDistance c2WitnessCache 3 1 0 = (true, 2) := by
  have hhops : hopsTo c2WitnessCache 1 3 2 :=
    @hopsTo.step c2WitnessCache 1 2 3 { root := 1, slot := 10, parentRoot := some 2 } 1
      rfl rfl
      (@hopsTo.step c2WitnessCache 2 3 3 { root := 2, slot := 5, parentRoot := some 3 } 0
        rfl rfl (hopsTo.refl 3))
  exact ((c2_getCanonicalDistance c2WitnessCache 3 1
      { root := 3, slot := 1, parentRoot := none }
      { root := 1, slot := 10, parentRoot := some 2 }
      (by decide) (by decide) rfl rfl).1 0 2).mpr ⟨hhops, Or.inl rfl⟩

/-! ### C9: removeBlock frame conditions -/

theorem mem_removeFirst_of_ne {l : List Block} {x y : Block}
    (hx : x ∈ l) (hne : x ≠ y) : x ∈ removeFirst l y := by
  induction l with
  | nil => simp at hx
  | cons a t ih =>
    by_cases ha : a = y
    · subst ha
      simp only [removeFirst, if_pos rfl]
      rcases List.mem_cons.mp hx with he | hxt
      · exact absurd he hne
      · exact hxt
    · simp only [removeFirst, if_neg ha]
      rcases List.mem_cons.mp hx with he | hxt
      · rw [he]
        exact List.mem_cons_self _ _
      · exact List.mem_cons_of_mem _ (ih hxt)

theorem not_mem_removeFirst {l : List Block} {y : Block} (hnd : l.Nodup) :
    y ∉ removeFirst l y := by
  induction l with
  | nil => simp [removeFirst]
  | cons a t ih =>
    rw [List.nodup_cons] at hnd
    by_cases ha : a = y
    · subst ha
      simpa [removeFirst] using hnd.1
    · simp only [removeFirst, if_neg ha]
      intro hmem
      rcases List.mem_cons.mp hmem with he | hmem'
      · exact ha he.symm
      · exact ih hnd.2 hmem'

theorem length_ge_two_of_two_mem {l : List Block} {x y : Block}
    (hx : x ∈ l) (hy : y ∈ l) (hne : x ≠ y) : 1 < l.length := by
  cases l with
  | nil => simp at hx
  | cons a t =>
    cases t with
    | nil =>
      simp at hx hy
      subst hx
      exact absurd hy.symm hne
    | cons b' t' =>
      simp only [List.length_cons]
      omega

theorem removeBlock_rootMap (c : BlockCache) (b : Block) :
    (removeBlock c b).rootMap = eraseA c.rootMap b.root := rfl

theorem removeBlock_slotMap (c : BlockCache) (b : Block) :
    (removeBlock c b).slotMap = removeBlockSlotMap c b := rfl

theorem getBlockByRoot_removeBlock (c : BlockCache) (b : Block) (x : Root) :
    getBlockByRoot (removeBlock c b) x = lookupA (eraseA c.rootMap b.root) x := rfl

theorem getBlocksBySlot_removeBlock (c : BlockCache) (b : Block) (s : Nat) :
    getBlocksBySlot (removeBlock c b) s =
      match lookupA (removeBlockSlotMap c b) s with
      | none => []
      | some bs => bs := rfl

/-- C9: `removeBlock b` deletes `b` from both the root index and its
per-slot bucket, and leaves every other cached block retrievable by root
and by slot, unchanged. Hypotheses: the map keys are unique (Go map
invariant), bucket members have pairwise distinct roots and appear in the
root index (cache invariant: one instance per root), and `b` is cached. -/
theorem c9_removeBlock (c : BlockCache) (b : Block)
    (hrk : (c.rootMap.map Prod.fst).Nodup)
    (hsk : (c.slotMap.map Prod.fst).Nodup)
    (hbuckets : ∀ sv ∈ c.slotMap, ((sv.2).map Block.root).Nodup)
    (hcross : ∀ kb ∈ c.rootMap, (kb.2) ∈ getBlocksBySlot c ((kb.2).slot))
    (hb : getBlockByRoot c b.root = some b) :
    getBlockByRoot (removeBlock c b) b.root = none ∧
    b ∉ getBlocksBySlot (removeBlock c b) b.slot ∧
    (∀ b', getBlockByRoot c b'.root = some b' → b' ≠ b →
      getBlockByRoot (removeBlock c b) b'.root = some b' ∧
      b' ∈ getBlocksBySlot (removeBlock c b) b'.slot) := by
  have hbmem : b ∈ getBlocksBySlot c b.slot :=
    hcross (b.root, b) (lookupA_mem hb)
  obtain ⟨bs, hlk⟩ : ∃ bs, lookupA c.slotMap b.slot = some bs := by
    cases hlk : lookupA c.slotMap b.slot with
    | none =>
      exfalso
      have hempty : getBlocksBySlot c b.slot = [] := by
        unfold getBlocksBySlot
        rw [hlk]
      rw [hempty] at hbmem
      simp at hbmem
    | some bs => exact ⟨bs, rfl⟩
  have hbseq : getBlocksBySlot c b.slot = bs := by
    unfold getBlocksBySlot
    rw [hlk]
  rw [hbseq] at hbmem
  have hbsnd : bs.Nodup :=
    List.Nodup.of_map _ (hbuckets (b.slot, bs) (lookupA_mem hlk))
  refine ⟨?_, ?_, ?_⟩
  · rw [getBlockByRoot_removeBlock]
    exact lookupA_eraseA_self _ _ hrk
  · rw [getBlocksBySlot_removeBlock]
    unfold removeBlockSlotMap
    rw [hbseq]
    by_cases h1 : bs.length = 1 ∧ bs.head? = some b
    · rw [if_pos h1, lookupA_eraseA_self _ _ hsk]
      simp
    · rw [if_neg h1]
      have h2 : bs.length > 1 := by
        rcases bs with - | ⟨x, t⟩
        · simp at hbmem
        · rcases t with - | ⟨y, t'⟩
          · exfalso
            apply h1
            refine ⟨rfl, ?_⟩
            simp at hbmem
            simp [hbmem]
          · simp only [List.length_cons]
            omega
      rw [if_pos h2, lookupA_setA_self]
      exact not_mem_removeFirst hbsnd
  · intro b' hb' hne
    have hroots : b'.root ≠ b.root := by
      intro he
      rw [he, hb] at hb'
      have hbb : b = b' := by simpa using hb'
      exact hne hbb.symm
    refine ⟨?_, ?_⟩
    · rw [getBlockByRoot_removeBlock, lookupA_eraseA_ne _ _ _ hroots]
      exact hb'
    · have hb'mem : b' ∈ getBlocksBySlot c b'.slot :=
        hcross (b'.root, b') (lookupA_mem hb')
      rw [getBlocksBySlot_removeBlock]
      unfold removeBlockSlotMap
      rw [hbseq]
      by_cases hslot : b'.slot = b.slot
      · rw [hslot] at hb'mem ⊢
        rw [hbseq] at hb'mem
        have h2 : bs.length > 1 := length_ge_two_of_two_mem hb'mem hbmem hne
        have h1 : ¬ (bs.length = 1 ∧ bs.head? = some b) := by
          intro hcontra
          omega
        rw [if_neg h1, if_pos h2, lookupA_setA_self]
        exact mem_removeFirst_of_ne hb'mem hne
      · unfold getBlocksBySlot at hb'mem
        by_cases h1 : bs.length = 1 ∧ bs.head? = some b
        · rw [if_pos h1, lookupA_eraseA_ne _ _ _ hslot]
          exact hb'mem
        · by_cases h2 : bs.length > 1
          · rw [if_neg h1, if_pos h2, lookupA_setA_ne _ _ _ _ hslot]
            exact hb'mem
          · rw [if_neg h1, if_neg h2]
            exact hb'mem

/-- A concrete cache for the `c9_removeBlock` witness: two blocks share
slot 4, one sits alone at slot 9. -/
def c9WitnessCache : BlockCache :=
  { highestSlot := 9, lowestSlot := 0,
    rootMap :=
      [(10, { root := 10, slot := 4, parentRoot := none }),
       (11, { root := 11, slot := 4, parentRoot := none }),
       (12, { root := 12, slot := 9, parentRoot := none })],
    slotMap :=
      [(4, [{ root := 10, slot := 4, parentRoot := none },
            { root := 11, slot := 4, parentRoot := none }]),
       (9, [{ root := 12, slot := 9, parentRoot := none }])] }

theorem c9_removeBlock_witness :
    getBlockByRoot (removeBlock c9WitnessCache
      { root := 10, slot := 4, parentRoot := none }) 10 = none ∧
    { root := 10, slot := 4, parentRoot := none } ∉
      getBlocksBySlot (removeBlock c9WitnessCache
        { root := 10, slot := 4, parentRoot := none }) 4 ∧
    getBlockByRoot (removeBlock c9WitnessCache
      { root := 10, slot := 4, parentRoot := none }) 11 =
      some { root := 11, slot := 4, parentRoot := none } ∧
    { root := 11, slot := 4, parentRoot := none } ∈
      getBlocksBySlot (removeBlock c9WitnessCache
        { root := 10, slot := 4, parentRoot := none }) 4 := by
  obtain ⟨h1, h2, h3⟩ := c9_removeBlock c9WitnessCache
    { root := 10, slot := 4, parentRoot := none }
    (by decide) (by decide) (by decide) (by decide) (by decide)
  obtain ⟨h4, h5⟩ := h3 { root := 11, slot := 4, parentRoot := none }
    (by decide) (by decide)
  exact ⟨h1, h2, h4, h5⟩

/-! ## Deposit indexer (type `DepositIndexer` of the execution package) -/

/-- Modelled from the spec: `dbtypes.DepositTx` (§3), the row type persisted
per decoded deposit event (the `dbtypes` package is not part of the provided
sources; fields as listed in the spec and as populated by the indexer).
Byte strings are lists of byte values, 20/32-byte hashes are abstracted as
`Nat` keys. -/
structure DepositTx where
  Index : Nat
  BlockNumber : Nat
  BlockTime : Nat
  BlockRoot : Nat
  PublicKey : List Nat
  WithdrawalCredentials : List Nat
  Amount : Nat
  Signature : List Nat
  Orphaned : Bool
  ForkId : Nat
  TxHash : Nat
  TxSender : Nat
  TxTarget : Nat
  ValidSignature : Bool
  deriving DecidableEq, Repr

/-- Modelled from the spec: `dbtypes.DepositIndexerState` (§3), the persisted
checkpoint `{ FinalBlock, HeadBlock }`. -/
structure DepositIndexerState where
  FinalBlock : Nat
  HeadBlock : Nat
  deriving DecidableEq, Repr

/-- Modelled from the spec: the durable persistence gateway state (§6) —
the committed `DepositTx` rows plus the stored explorer-state checkpoint. -/
structure ExplorerDB where
  depositTxs : List DepositTx
  depositState : DepositIndexerState
  deriving DecidableEq, Repr

/-- The external BLS/zrnt cryptography consumed by `checkDepositValidity`
(third-party libraries, outside this repository): public-key and signature
decompression (`Pubkey()` / `Signature()`, failing on malformed encodings),
BLS verification, `DepositMessage.HashTreeRoot` and `ComputeSigningRoot`.
Decompressed points and roots are abstracted as `Nat`. -/
structure BLSCrypto where
  pubkeyDecompress : List Nat → Option Nat
  sigDecompress : List Nat → Option Nat
  verify : Nat → Nat → Nat → Bool
  hashTreeRoot : List Nat → List Nat → Nat → Nat
  computeSigningRoot : Nat → Nat → Nat

/-- `binary.LittleEndian.Uint64`: read the first 8 bytes little-endian
(entries of the list model bytes, i.e. values below 256). -/
def leUint64Aux : Nat → List Nat → Nat
  | 0, _ => 0
  | _ + 1, [] => 0
  | n + 1, byte :: rest => byte + 256 * leUint64Aux n rest

def leUint64 (bs : List Nat) : Nat :=
  leUint64Aux 8 bs

/-- `checkDepositValidity`: build the deposit message, compute its signing
root under the deposit domain, and set `ValidSignature` (only to `true`, and
only) when pubkey decompression, signature decompression and BLS
verification all succeed; it never fails. -/
def checkDepositValidity (bls : BLSCrypto) (depositSigDomain : Nat)
    (depositTx : DepositTx) : DepositTx :=
  let depositRoot :=
    bls.hashTreeRoot depositTx.PublicKey depositTx.WithdrawalCredentials
      depositTx.Amount
  let signingRoot := bls.computeSigningRoot depositRoot depositSigDomain
  match bls.pubkeyDecompress depositTx.PublicKey,
      bls.sigDecompress depositTx.Signature with
  | some pubkey, some sig =>
    if bls.verify pubkey signingRoot sig then
      { depositTx with ValidSignature := true }
    else depositTx
  | _, _ => depositTx

/-- A decoded `DepositEvent` (the result of `depositContractAbi.Unpack`):
the five ABI byte-string fields. -/
structure DepositEventData where
  pubkey : List Nat
  withdrawalCredentials : List Nat
  amountBytes : List Nat
  signature : List Nat
  indexBytes : List Nat
  deriving DecidableEq, Repr

/-- An execution-layer log as consumed by the indexer: first topic, tx hash,
block number/hash, and the ABI-decodable data (`none` models an `Unpack`
decode failure). -/
structure EthLog where
  topic0 : Nat
  txHash : Nat
  blockNumber : Nat
  blockHash : Nat
  data : Option DepositEventData
  deriving DecidableEq, Repr

/-- A transaction as returned by `TransactionByHash`: recovered sender
(`none` models a `types.Sender` recovery failure) and target address. -/
structure EthTx where
  sender : Option Nat
  target : Nat
  deriving DecidableEq, Repr

/-- A block header as returned by `GetHeaderByNumber`. -/
structure EthHeader where
  time : Nat
  deriving DecidableEq, Repr

/-- Failure injection for one `persistFinalizedDepositTxs` call: whether the
external `InsertDepositTxs` / `SetExplorerState` calls fail inside the
transaction. -/
structure PersistOutcome where
  insertFails : Bool
  setStateFails : Bool

/-- One fork head with its grouped clients (`forkWithClients`). The head
block resolution (`GetCanonicalHead` / `GetBlockIndex`) is modelled as
nested options: outer `none` = head block not found, inner `none` = block
index values not available. -/
structure ForkEnv where
  forkId : Nat
  clientCount : Nat
  headBlock : Option (Option Nat)

/-- The external world of one indexer run: configuration, RPC results and
persistence-call outcomes, all deterministic functions. -/
structure IndexerEnv where
  batchSize : Nat
  depositEventTopic : Nat
  depositSigDomain : Nat
  bls : BLSCrypto
  hasFinalizedClients : Bool
  filterLogsFin : Nat → Nat → Except Unit (List EthLog)
  filterLogsRecent : Nat → Nat → Nat × Nat → Except Unit (List EthLog)
  loadTransactionByHash : Nat → Except Unit EthTx
  loadHeaderByNumber : Nat → Except Unit EthHeader
  finOutcomes : Nat → PersistOutcome
  recentOutcomes : Nat → Bool
  beaconForkIds : Nat → List Nat
  justifiedEpoch : Nat
  justifiedRoot : Nat
  blockByRoot : Nat → Option (Option Nat)
  headForks : List ForkEnv

/-- The transient `unfinalizedDeposits` dedup map: deposit index → set of
block hashes already recorded on an unfinalized branch. -/
abbrev UnfinMap := List (Nat × List Nat)

/-- `ds.unfinalizedDeposits[depositIndex] != nil &&
ds.unfinalizedDeposits[depositIndex][log.BlockHash]`. -/
def unfinMem (u : UnfinMap) (depositIndex blockHash : Nat) : Bool :=
  match lookupA u depositIndex with
  | none => false
  | some hs => hs.contains blockHash

/-- `persistFinalizedDepositTxs`: one database transaction that inserts the
deposit rows (when non-empty), advances the in-memory checkpoint, and writes
it durably. Modelled from the spec for the external calls (§5: atomic
commit-or-rollback per transaction): a failed transaction leaves the durable
store unchanged; the in-memory state mutation sits between the two external
calls exactly as in the source. Returns (committed, state, db). -/
def persistFinalizedDepositTxs (outcome : PersistOutcome) (toBlockNumber : Nat)
    (deposits : List DepositTx) (st : DepositIndexerState) (db : ExplorerDB) :
    Bool × DepositIndexerState × ExplorerDB :=
  if deposits.length > 0 ∧ outcome.insertFails then (false, st, db)
  else
    let st' : DepositIndexerState :=
      { FinalBlock := toBlockNumber,
        HeadBlock :=
          if toBlockNumber > st.HeadBlock then toBlockNumber else st.HeadBlock }
    if outcome.setStateFails then (false, st', db)
    else (true, st',
      { depositTxs := db.depositTxs ++ deposits, depositState := st' })

/-- The finalized pass's chunked persist loop: `for depositIdx := 0;
depositIdx < depositCount; depositIdx += 500`, each chunk persisted by its
own `persistFinalizedDepositTxs(toBlock, chunk)` call; the first failure
aborts. `callNo` counts persist calls (indexing into the outcome schedule).
Returns (ok, next call number, state, db). -/
def persistFinalizedChunksAux (outcomes : Nat → PersistOutcome)
    (toBlock : Nat) :
    Nat → Nat → List DepositTx → DepositIndexerState → ExplorerDB →
    Bool × Nat × DepositIndexerState × ExplorerDB
  | _, callNo, [], st, db => (true, callNo, st, db)
  | 0, callNo, _ :: _, st, db => (true, callNo, st, db)
  | fuel + 1, callNo, d :: rest, st, db =>
    match persistFinalizedDepositTxs (outcomes callNo) toBlock
        ((d :: rest).take 500) st db with
    | (false, st', db') => (false, callNo + 1, st', db')
    | (true, st', db') =>
      persistFinalizedChunksAux outcomes toBlock fuel (callNo + 1)
        ((d :: rest).drop 500) st' db'

def persistFinalizedChunks (outcomes : Nat → PersistOutcome) (toBlock : Nat)
    (callNo : Nat) (deposits : List DepositTx) (st : DepositIndexerState)
    (db : ExplorerDB) : Bool × Nat × DepositIndexerState × ExplorerDB :=
  persistFinalizedChunksAux outcomes toBlock deposits.length callNo deposits
    st db

/-- Load transaction details and block header for a log (fresh RPC calls;
either failing aborts the batch). -/
def loadTxAndHeaderFresh (env : IndexerEnv) (log : EthLog) :
    Except Unit (EthTx × EthHeader) :=
  match env.loadTransactionByHash log.txHash with
  | .error e => .error e
  | .ok tx =>
    match env.loadHeaderByNumber log.blockNumber with
    | .error e => .error e
    | .ok hd => .ok (tx, hd)

/-- The per-batch transaction memoization (`txHash == nil ||
!bytes.Equal(txHash, log.TxHash)`): reuse the cached details for a repeated
tx hash, otherwise load fresh. -/
def loadTxAndHeader (env : IndexerEnv) (memo : Option (Nat × EthTx × EthHeader))
    (log : EthLog) : Except Unit (EthTx × EthHeader) :=
  match memo with
  | some (h, tx, hd) =>
    if h = log.txHash then .ok (tx, hd) else loadTxAndHeaderFresh env log
  | none => loadTxAndHeaderFresh env log

/-- The finalized pass's per-log loop: skip logs with a foreign first topic,
abort the batch on decode/RPC/sender failures, and build one `DepositTx`
(with `checkDepositValidity` applied) per deposit event. -/
def buildFinalizedDepositTxsAux (env : IndexerEnv) :
    List EthLog → Option (Nat × EthTx × EthHeader) → List DepositTx →
    Except Unit (List DepositTx)
  | [], _, acc => .ok acc
  | log :: rest, memo, acc =>
    if log.topic0 ≠ env.depositEventTopic then
      buildFinalizedDepositTxsAux env rest memo acc
    else
      match log.data with
      | none => .error ()
      | some ev =>
        match loadTxAndHeader env memo log with
        | .error e => .error e
        | .ok (txDetails, txBlockHeader) =>
          match txDetails.sender with
          | none => .error ()
          | some txFrom =>
            let depositTx : DepositTx :=
              { Index := leUint64 ev.indexBytes,
                BlockNumber := log.blockNumber,
                BlockTime := txBlockHeader.time,
                BlockRoot := log.blockHash,
                PublicKey := ev.pubkey,
                WithdrawalCredentials := ev.withdrawalCredentials,
                Amount := leUint64 ev.amountBytes,
                Signature := ev.signature,
                Orphaned := false,
                ForkId := 0,
                TxHash := log.txHash,
                TxSender := txFrom,
                TxTarget := txDetails.target,
                ValidSignature := false }
            buildFinalizedDepositTxsAux env rest
              (some (log.txHash, txDetails, txBlockHeader))
              (acc ++ [checkDepositValidity env.bls env.depositSigDomain depositTx])

def buildFinalizedDepositTxs (env : IndexerEnv) (logs : List EthLog) :
    Except Unit (List DepositTx) :=
  buildFinalizedDepositTxsAux env logs none []

/-- After a persisted finalized batch: delete every just-finalized deposit
index from the unfinalized-dedup map. -/
def purgeUnfinalized (u : UnfinMap) (txs : List DepositTx) : UnfinMap :=
  txs.foldl (fun acc tx => eraseA acc tx.Index) u

/-- Result of the finalized pass: success flag, in-memory state, durable
store, dedup map and the number of persist calls made. -/
structure FinResult where
  ok : Bool
  st : DepositIndexerState
  db : ExplorerDB
  unfin : UnfinMap
  calls : Nat

/-- One iteration of the `processFinalizedBlocks` loop: one block batch
`[state.FinalBlock+1, toBlock]` with `toBlock = min(FinalBlock + batchSize,
finalizedBlockNumber)`: fetch logs, decode and build the deposit rows,
persist them in chunks of 500 (or persist just the checkpoint when there are
none), then purge finalized indices from the dedup map. -/
def processFinalizedBatch (env : IndexerEnv) (finalizedBlockNumber callNo : Nat)
    (st : DepositIndexerState) (db : ExplorerDB) (unfin : UnfinMap) :
    FinResult :=
  let toBlock := min (st.FinalBlock + env.batchSize) finalizedBlockNumber
  match env.filterLogsFin (st.FinalBlock + 1) toBlock with
  | .error _ => ⟨false, st, db, unfin, callNo⟩
  | .ok logs =>
    match buildFinalizedDepositTxs env logs with
    | .error _ => ⟨false, st, db, unfin, callNo⟩
    | .ok depositTxs =>
      if depositTxs.length > 0 then
        match persistFinalizedChunks env.finOutcomes toBlock callNo
            depositTxs st db with
        | (true, callNo', st', db') =>
          ⟨true, st', db', purgeUnfinalized unfin depositTxs, callNo'⟩
        | (false, callNo', st', db') => ⟨false, st', db', unfin, callNo'⟩
      else
        match persistFinalizedDepositTxs (env.finOutcomes callNo) toBlock []
            st db with
        | (true, st', db') => ⟨true, st', db', unfin, callNo + 1⟩
        | (false, st', db') => ⟨false, st', db', unfin, callNo + 1⟩

/-- The `for ds.state.FinalBlock < finalizedBlockNumber` loop, fuel-indexed.
With `batchSize ≥ 1` every successful batch strictly advances
`state.FinalBlock`, so `finalizedBlockNumber - st.FinalBlock` units of fuel
are enough and the zero-fuel branch is unreachable from the wrapper. -/
def processFinalizedBlocksLoop (env : IndexerEnv) (finalizedBlockNumber : Nat) :
    Nat → Nat → DepositIndexerState → ExplorerDB → UnfinMap → FinResult
  | 0, callNo, st, db, unfin =>
    if st.FinalBlock < finalizedBlockNumber then ⟨false, st, db, unfin, callNo⟩
    else ⟨true, st, db, unfin, callNo⟩
  | fuel + 1, callNo, st, db, unfin =>
    if st.FinalBlock < finalizedBlockNumber then
      let r := processFinalizedBatch env finalizedBlockNumber callNo st db unfin
      if r.ok then
        processFinalizedBlocksLoop env finalizedBlockNumber fuel r.calls r.st
          r.db r.unfin
      else r
    else ⟨true, st, db, unfin, callNo⟩

/-- `processFinalizedBlocks`: fails when no finalized execution client is
ready, otherwise runs the batch loop up to `finalizedBlockNumber`. -/
def processFinalizedBlocks (env : IndexerEnv) (finalizedBlockNumber : Nat)
    (st : DepositIndexerState) (db : ExplorerDB) (unfin : UnfinMap) :
    FinResult :=
  if env.hasFinalizedClients then
    processFinalizedBlocksLoop env finalizedBlockNumber
      (finalizedBlockNumber - st.FinalBlock) 0 st db unfin
  else ⟨false, st, db, unfin, 0⟩

/-- The recent pass's filter query: `FromBlock = state.FinalBlock + 1`,
`ToBlock = elHeadBlockNumber - 1`, both computed in unsigned-64-bit
arithmetic (`big.NewInt(0).SetUint64(...)` of Go `uint64` values, so
`elHeadBlockNumber = 0` wraps to `2^64 - 1`). -/
def mkRecentFilterQuery (st : DepositIndexerState) (elHeadBlockNumber : Nat) :
    Nat × Nat :=
  ((st.FinalBlock + 1) % 2 ^ 64, (elHeadBlockNumber + (2 ^ 64 - 1)) % 2 ^ 64)

/-- The recent pass's per-log loop: like the finalized pass, but skipping
`(index, blockHash)` pairs already present in the dedup map, resolving the
owning beacon fork via `GetBlocksByExecutionBlockHash` (first match wins;
empty falls back to the head fork), and marking rows `Orphaned` with the
resolved fork id. -/
def buildRecentDepositTxsAux (env : IndexerEnv) (fork : ForkEnv)
    (unfin : UnfinMap) :
    List EthLog → Option (Nat × EthTx × EthHeader) → List DepositTx →
    Except Unit (List DepositTx)
  | [], _, acc => .ok acc
  | log :: rest, memo, acc =>
    if log.topic0 ≠ env.depositEventTopic then
      buildRecentDepositTxsAux env fork unfin rest memo acc
    else
      match log.data with
      | none => .error ()
      | some ev =>
        if unfinMem unfin (leUint64 ev.indexBytes) log.blockHash then
          buildRecentDepositTxsAux env fork unfin rest memo acc
        else
          match loadTxAndHeader env memo log with
          | .error e => .error e
          | .ok (txDetails, txBlockHeader) =>
            match txDetails.sender with
            | none => .error ()
            | some txFrom =>
              let depositForkId :=
                match env.beaconForkIds log.blockHash with
                | [] => fork.forkId
                | fid :: _ => fid
              let depositTx : DepositTx :=
                { Index := leUint64 ev.indexBytes,
                  BlockNumber := log.blockNumber,
                  BlockTime := txBlockHeader.time,
                  BlockRoot := log.blockHash,
                  PublicKey := ev.pubkey,
                  WithdrawalCredentials := ev.withdrawalCredentials,
                  Amount := leUint64 ev.amountBytes,
                  Signature := ev.signature,
                  Orphaned := true,
                  ForkId := depositForkId,
                  TxHash := log.txHash,
                  TxSender := txFrom,
                  TxTarget := txDetails.target,
                  ValidSignature := false }
              buildRecentDepositTxsAux env fork unfin rest
                (some (log.txHash, txDetails, txBlockHeader))
                (acc ++ [checkDepositValidity env.bls env.depositSigDomain depositTx])

def buildRecentDepositTxs (env : IndexerEnv) (fork : ForkEnv) (unfin : UnfinMap)
    (logs : List EthLog) : Except Unit (List DepositTx) :=
  buildRecentDepositTxsAux env fork unfin logs none []

/-- `persistRecentDepositTxs` applied in chunks of 500: each call is one
database transaction inserting its rows; no checkpoint write. Modelled from
the spec for the external calls (§5/§6). -/
def persistRecentChunksAux (outcomes : Nat → Bool) :
    Nat → Nat → List DepositTx → ExplorerDB → Bool × Nat × ExplorerDB
  | _, callNo, [], db => (true, callNo, db)
  | 0, callNo, _ :: _, db => (true, callNo, db)
  | fuel + 1, callNo, d :: rest, db =>
    if outcomes callNo then
      persistRecentChunksAux outcomes fuel (callNo + 1) ((d :: rest).drop 500)
        { db with depositTxs := db.depositTxs ++ (d :: rest).take 500 }
    else (false, callNo + 1, db)

def persistRecentChunks (outcomes : Nat → Bool) (callNo : Nat)
    (deposits : List DepositTx) (db : ExplorerDB) : Bool × Nat × ExplorerDB :=
  persistRecentChunksAux outcomes deposits.length callNo deposits db

/-- Record one persisted `(index, blockHash)` pair into the dedup map
(`ds.unfinalizedDeposits[tx.Index][tx.BlockRoot] = true`, with the inner
set created on demand). -/
def recordDeposit (acc : UnfinMap) (tx : DepositTx) : UnfinMap :=
  let hs := (lookupA acc tx.Index).getD []
  setA acc tx.Index
    (if hs.contains tx.BlockRoot then hs else hs ++ [tx.BlockRoot])

/-- After a persisted recent batch: record every persisted
`(index, blockHash)` pair into the dedup map. -/
def recordUnfinalized (u : UnfinMap) (txs : List DepositTx) : UnfinMap :=
  txs.foldl recordDeposit u

/-- Result of the recent pass for one fork: error flag, dedup map, durable
store, persist-call counter, and the clients attempted (in order). -/
structure RecentResult where
  err : Bool
  unfin : UnfinMap
  db : ExplorerDB
  calls : Nat
  attemptedClients : List Nat

/-- The `for retryCount := 0; retryCount < 3; retryCount++` loop of
`processRecentBlocksForFork`, written with the remaining iteration count as
fuel (`attemptsLeft + attempt = 3`). Attempt `k` uses client
`k % len(clients)`; any error returns immediately; a fully processed
iteration continues with the next attempt. -/
def processRecentAttempts (env : IndexerEnv) (fork : ForkEnv)
    (st : DepositIndexerState) (elHeadBlockNumber : Nat) :
    Nat → Nat → UnfinMap → ExplorerDB → Nat → List Nat → RecentResult
  | 0, _, unfin, db, calls, attempted => ⟨false, unfin, db, calls, attempted⟩
  | attemptsLeft + 1, attempt, unfin, db, calls, attempted =>
    let client := attempt % fork.clientCount
    let attempted' := attempted ++ [client]
    match env.filterLogsRecent fork.forkId attempt
        (mkRecentFilterQuery st elHeadBlockNumber) with
    | .error _ => ⟨true, unfin, db, calls, attempted'⟩
    | .ok logs =>
      match buildRecentDepositTxs env fork unfin logs with
      | .error _ => ⟨true, unfin, db, calls, attempted'⟩
      | .ok depositTxs =>
        if depositTxs.length > 0 then
          match persistRecentChunks env.recentOutcomes calls depositTxs db with
          | (true, calls', db') =>
            processRecentAttempts env fork st elHeadBlockNumber attemptsLeft
              (attempt + 1) (recordUnfinalized unfin depositTxs) db' calls'
              attempted'
          | (false, calls', db') => ⟨true, unfin, db', calls', attempted'⟩
        else
          processRecentAttempts env fork st elHeadBlockNumber attemptsLeft
            (attempt + 1) unfin db calls attempted'

/-- `processRecentBlocksForFork`: resolve the fork's head execution block
number, then run the 3-attempt loop over the range
`[state.FinalBlock+1, headNumber-1]`. -/
def processRecentBlocksForFork (env : IndexerEnv) (fork : ForkEnv)
    (st : DepositIndexerState) (unfin : UnfinMap) (db : ExplorerDB)
    (calls : Nat) : RecentResult :=
  match fork.headBlock with
  | none => ⟨true, unfin, db, calls, []⟩
  | some none => ⟨true, unfin, db, calls, []⟩
  | some (some elHeadBlockNumber) =>
    processRecentAttempts env fork st elHeadBlockNumber 3 0 unfin db calls []

/-- `processRecentBlocks`: run the per-fork recent pass for every tracked
fork head; per-fork errors are logged and swallowed (the partial map/db
updates made before an error persist). -/
def processRecentBlocksGo (env : IndexerEnv) (st : DepositIndexerState) :
    List ForkEnv → UnfinMap → ExplorerDB → Nat → UnfinMap × ExplorerDB × Nat
  | [], unfin, db, calls => (unfin, db, calls)
  | fork :: rest, unfin, db, calls =>
    let r := processRecentBlocksForFork env fork st unfin db calls
    processRecentBlocksGo env st rest r.unfin r.db r.calls

def processRecentBlocks (env : IndexerEnv) (st : DepositIndexerState)
    (unfin : UnfinMap) (db : ExplorerDB) : UnfinMap × ExplorerDB :=
  let r := processRecentBlocksGo env st env.headForks unfin db 0
  (r.1, r.2.1)

/-- Result of one `runDepositIndexer` tick: whether an error was surfaced,
which passes executed, and the resulting state/store/dedup map. -/
structure RunResult where
  err : Bool
  finalizedRan : Bool
  recentRan : Bool
  st : DepositIndexerState
  db : ExplorerDB
  unfin : UnfinMap

/-- `runDepositIndexer`: resolve the justified checkpoint's execution block
number; a number below the stored checkpoint is a consistency fault that
surfaces as an error before either pass runs; a number above it runs the
finalized pass (whose failure skips the recent pass); then the recent pass. -/
def runDepositIndexer (env : IndexerEnv) (st : DepositIndexerState)
    (db : ExplorerDB) (unfin : UnfinMap) : RunResult :=
  if env.justifiedEpoch > 0 then
    match env.blockByRoot env.justifiedRoot with
    | none => ⟨true, false, false, st, db, unfin⟩
    | some none => ⟨true, false, false, st, db, unfin⟩
    | some (some finalizedBlockNumber) =>
      if finalizedBlockNumber < st.FinalBlock then
        ⟨true, false, false, st, db, unfin⟩
      else if finalizedBlockNumber > st.FinalBlock then
        let r := processFinalizedBlocks env finalizedBlockNumber st db unfin
        if r.ok then
          let recent := processRecentBlocks env r.st r.unfin r.db
          ⟨false, true, true, r.st, recent.2, recent.1⟩
        else ⟨true, true, false, r.st, r.db, r.unfin⟩
      else
        let recent := processRecentBlocks env st unfin db
        ⟨false, false, true, st, recent.2, recent.1⟩
  else
    let recent := processRecentBlocks env st unfin db
    ⟨false, false, true, st, recent.2, recent.1⟩

/-! ### C7: checkDepositValidity -/

theorem checkDepositValidity_eq_or (bls : BLSCrypto) (dom : Nat)
    (tx : DepositTx) :
    checkDepositValidity bls dom tx = tx ∨
    checkDepositValidity bls dom tx = { tx with ValidSignature := true } := by
  unfold checkDepositValidity
  cases bls.pubkeyDecompress tx.PublicKey with
  | none => left; rfl
  | some pubkey =>
    cases bls.sigDecompress tx.Signature with
    | none => left; rfl
    | some sig =>
      dsimp only
      by_cases hv : bls.verify pubkey
          (bls.computeSigningRoot
            (bls.hashTreeRoot tx.PublicKey tx.WithdrawalCredentials tx.Amount)
            dom) sig = true
      · rw [if_pos hv]
        right
        rfl
      · rw [if_neg hv]
        left
        rfl

/-- C7: for a freshly built deposit row (`ValidSignature = false`),
`checkDepositValidity` sets `ValidSignature` to true iff public-key
decompression, signature decompression, and BLS verification of the deposit
message's signing root under the deposit domain all succeed; it never
errors, and touches nothing but the `ValidSignature` flag. -/
theorem c7_checkDepositValidity (bls : BLSCrypto) (dom : Nat) (tx : DepositTx)
    (h : tx.ValidSignature = false) :
    ((checkDepositValidity bls dom tx).ValidSignature = true ↔
      ∃ pubkey sig, bls.pubkeyDecompress tx.PublicKey = some pubkey ∧
        bls.sigDecompress tx.Signature = some sig ∧
        bls.verify pubkey
          (bls.computeSigningRoot
            (bls.hashTreeRoot tx.PublicKey tx.WithdrawalCredentials tx.Amount)
            dom) sig = true) ∧
    (checkDepositValidity bls dom tx = tx ∨
      checkDepositValidity bls dom tx = { tx with ValidSignature := true }) := by
  refine ⟨?_, checkDepositValidity_eq_or bls dom tx⟩
  unfold checkDepositValidity
  cases hpk : bls.pubkeyDecompress tx.PublicKey with
  | none =>
    dsimp only
    constructor
    · intro hv
      exact absurd (h.symm.trans hv) (by simp)
    · rintro ⟨pk, sg, h1, -, -⟩
      exact Option.noConfusion h1
  | some pubkey =>
    cases hsg : bls.sigDecompress tx.Signature with
    | none =>
      dsimp only
      constructor
      · intro hv
        exact absurd (h.symm.trans hv) (by simp)
      · rintro ⟨pk, sg, -, h2, -⟩
        exact Option.noConfusion h2
    | some sig =>
      dsimp only
      by_cases hv : bls.verify pubkey
          (bls.computeSigningRoot
            (bls.hashTreeRoot tx.PublicKey tx.WithdrawalCredentials tx.Amount)
            dom) sig = true
      · rw [if_pos hv]
        constructor
        · intro _
          exact ⟨pubkey, sig, rfl, rfl, hv⟩
        · intro _
          rfl
      · rw [if_neg hv]
        constructor
        · intro hvt
          exact absurd (h.symm.trans hvt) (by simp)
        · rintro ⟨pk, sg, h1, h2, h3⟩
          injection h1 with h1
          injection h2 with h2
          subst h1
          subst h2
          exact absurd h3 hv

/-- A BLS oracle that accepts everything (abstract points are byte lengths). -/
def acceptingBLS : BLSCrypto :=
  { pubkeyDecompress := fun l => some l.length,
    sigDecompress := fun l => some l.length,
    verify := fun _ _ _ => true,
    hashTreeRoot := fun _ _ _ => 0,
    computeSigningRoot := fun _ _ => 0 }

/-- A BLS oracle on which every decompression fails. -/
def trivialBLS : BLSCrypto :=
  { pubkeyDecompress := fun _ => none,
    sigDecompress := fun _ => none,
    verify := fun _ _ _ => false,
    hashTreeRoot := fun _ _ _ => 0,
    computeSigningRoot := fun _ _ => 0 }

def c7WitnessTx : DepositTx :=
  { Index := 0, BlockNumber := 1, BlockTime := 2, BlockRoot := 3,
    PublicKey := [], WithdrawalCredentials := [], Amount := 32,
    Signature := [], Orphaned := false, ForkId := 0, TxHash := 4,
    TxSender := 5, TxTarget := 6, ValidSignature := false }

theorem c7_checkDepositValidity_witness :
    (checkDepositValidity acceptingBLS 0 c7WitnessTx).ValidSignature = true ∧
    (checkDepositValidity trivialBLS 0 c7WitnessTx).ValidSignature = false := by
  constructor
  · exact (c7_checkDepositValidity acceptingBLS 0 c7WitnessTx rfl).1.mpr
      ⟨0, 0, rfl, rfl, rfl⟩
  · have h := (c7_checkDepositValidity trivialBLS 0 c7WitnessTx rfl).1
    by_contra hcontra
    have hv : (checkDepositValidity trivialBLS 0 c7WitnessTx).ValidSignature = true := by
      cases hb : (checkDepositValidity trivialBLS 0 c7WitnessTx).ValidSignature
      · exact absurd hb hcontra
      · rfl
    obtain ⟨pk, -, h1, -, -⟩ := h.mp hv
    exact Option.noConfusion h1

/-! ### C10: recent-pass ToBlock wraps in uint64 arithmetic -/

/-- C10: the recent pass's `ToBlock` is the fork head's execution block
number minus 1 in unsigned 64-bit arithmetic: for a head number of 0 the
bound wraps to `2^64 - 1` (so the queried range is
`[state.FinalBlock + 1, 2^64 - 1]`, not an empty/rejected range), and for
`1 ≤ headNumber < 2^64` it is the plain `headNumber - 1`. -/
theorem c10_recent_query_wraps (st : DepositIndexerState)
    (h : st.FinalBlock + 1 < 2 ^ 64) :
    mkRecentFilterQuery st 0 = (st.FinalBlock + 1, 2 ^ 64 - 1) ∧
    (∀ headNumber, 1 ≤ headNumber → headNumber < 2 ^ 64 →
      mkRecentFilterQuery st headNumber = (st.FinalBlock + 1, headNumber - 1)) := by
  constructor
  · simp only [mkRecentFilterQuery, Prod.mk.injEq]
    omega
  · intro headNumber h1 h2
    simp only [mkRecentFilterQuery, Prod.mk.injEq]
    omega

theorem c10_recent_query_wraps_witness :
    mkRecentFilterQuery { FinalBlock := 41, HeadBlock := 50 } 0 =
      (42, 2 ^ 64 - 1) :=
  (c10_recent_query_wraps { FinalBlock := 41, HeadBlock := 50 }
    (by norm_num)).1

/-! ### C5: consistency fault halts the run -/

/-- C5: when the externally reported finalized execution-block number is
strictly below the stored checkpoint, the run surfaces an error and makes no
progress: neither pass executes and state, durable store and dedup map are
untouched. -/
theorem c5_consistency_fault (env : IndexerEnv) (st : DepositIndexerState)
    (db : ExplorerDB) (unfin : UnfinMap) (finalizedBlockNumber : Nat)
    (h1 : env.justifiedEpoch > 0)
    (h2 : env.blockByRoot env.justifiedRoot = some (some finalizedBlockNumber))
    (h3 : finalizedBlockNumber < st.FinalBlock) :
    runDepositIndexer env st db unfin =
      { err := true, finalizedRan := false, recentRan := false,
        st := st, db := db, unfin := unfin } := by
  unfold runDepositIndexer
  rw [if_pos h1, h2]
  dsimp only
  rw [if_pos h3]

/-- The environment shared by the concrete witness scenarios. -/
def baseIndexerEnv : IndexerEnv :=
  { batchSize := 1000, depositEventTopic := 0, depositSigDomain := 0,
    bls := trivialBLS, hasFinalizedClients := true,
    filterLogsFin := fun _ _ => .ok [],
    filterLogsRecent := fun _ _ _ => .ok [],
    loadTransactionByHash := fun _ => .ok { sender := some 7, target := 8 },
    loadHeaderByNumber := fun _ => .ok { time := 99 },
    finOutcomes := fun _ => { insertFails := false, setStateFails := false },
    recentOutcomes := fun _ => true,
    beaconForkIds := fun _ => [],
    justifiedEpoch := 0, justifiedRoot := 0,
    blockByRoot := fun _ => none,
    headForks := [] }

def c5WitnessEnv : IndexerEnv :=
  { baseIndexerEnv with
    justifiedEpoch := 1,
    blockByRoot := fun _ => some (some 3) }

theorem c5_consistency_fault_witness :
    runDepositIndexer c5WitnessEnv { FinalBlock := 5, HeadBlock := 5 }
        { depositTxs := [], depositState := { FinalBlock := 5, HeadBlock := 5 } } [] =
      { err := true, finalizedRan := false, recentRan := false,
        st := { FinalBlock := 5, HeadBlock := 5 },
        db := { depositTxs := [],
                depositState := { FinalBlock := 5, HeadBlock := 5 } },
        unfin := [] } :=
  c5_consistency_fault c5WitnessEnv _ _ [] 3 (by decide) (by rfl) (by decide)

/-! ### C6: the recent pass's retry loop -/

def c6FailEnv : IndexerEnv :=
  { baseIndexerEnv with
    filterLogsRecent := fun _ _ _ => .error (),
    headForks := [{ forkId := 1, clientCount := 2, headBlock := some (some 10) }] }

def c6Fork : ForkEnv :=
  { forkId := 1, clientCount := 2, headBlock := some (some 10) }

/-- C6 evaluation: a failing first attempt makes `processRecentBlocksForFork`
return the error immediately — only client 0 is ever attempted, there is no
retry on client 1; and on an error-free run the loop instead performs all
three iterations, round-robining clients 0, 1, 0. -/
theorem c6_no_retry_on_failure :
    ((processRecentBlocksForFork c6FailEnv c6Fork { FinalBlock := 0, HeadBlock := 0 }
        [] { depositTxs := [], depositState := { FinalBlock := 0, HeadBlock := 0 } }
        0).err = true ∧
      (processRecentBlocksForFork c6FailEnv c6Fork { FinalBlock := 0, HeadBlock := 0 }
        [] { depositTxs := [], depositState := { FinalBlock := 0, HeadBlock := 0 } }
        0).attemptedClients = [0]) ∧
    ((processRecentBlocksForFork baseIndexerEnv c6Fork { FinalBlock := 0, HeadBlock := 0 }
        [] { depositTxs := [], depositState := { FinalBlock := 0, HeadBlock := 0 } }
        0).err = false ∧
      (processRecentBlocksForFork baseIndexerEnv c6Fork { FinalBlock := 0, HeadBlock := 0 }
        [] { depositTxs := [], depositState := { FinalBlock := 0, HeadBlock := 0 } }
        0).attemptedClients = [0, 1, 0]) := by
  refine ⟨⟨rfl, rfl⟩, ⟨rfl, rfl⟩⟩

/-! ### C1: finalized-pass persistence and checkpoint advance -/

/-- The checkpoint advance performed inside `persistFinalizedDepositTxs`:
`FinalBlock := toBlockNumber` and `HeadBlock` raised to it. -/
def advancedState (st : DepositIndexerState) (toBlockNumber : Nat) :
    DepositIndexerState :=
  { FinalBlock := toBlockNumber,
    HeadBlock :=
      if toBlockNumber > st.HeadBlock then toBlockNumber else st.HeadBlock }

/-- A single persist call either commits rows and checkpoint together,
fails before the in-memory mutation (insert failure), or fails at the
durable checkpoint write with the in-memory state already advanced — the
durable store is untouched by any failure. -/
theorem persistFinalizedDepositTxs_spec (outcome : PersistOutcome)
    (toBlock : Nat) (deposits : List DepositTx) (st : DepositIndexerState)
    (db : ExplorerDB) :
    persistFinalizedDepositTxs outcome toBlock deposits st db =
      (true, advancedState st toBlock,
        { depositTxs := db.depositTxs ++ deposits,
          depositState := advancedState st toBlock }) ∨
    persistFinalizedDepositTxs outcome toBlock deposits st db =
      (false, st, db) ∨
    persistFinalizedDepositTxs outcome toBlock deposits st db =
      (false, advancedState st toBlock, db) := by
  unfold persistFinalizedDepositTxs advancedState
  by_cases h1 : deposits.length > 0 ∧ outcome.insertFails
  · rw [if_pos h1]
    right
    left
    rfl
  · rw [if_neg h1]
    dsimp only
    by_cases h2 : outcome.setStateFails
    · rw [if_pos h2]
      right
      right
      rfl
    · rw [if_neg h2]
      left
      rfl

theorem c1_chunksAux (outcomes : Nat → PersistOutcome) (toBlock : Nat) :
    ∀ (n : Nat) (deposits : List DepositTx), deposits.length ≤ n →
    ∀ (callNo : Nat) (st : DepositIndexerState) (db : ExplorerDB)
      (ok : Bool) (callNo' : Nat) (st' : DepositIndexerState) (db' : ExplorerDB),
      persistFinalizedChunksAux outcomes toBlock n callNo deposits st db =
        (ok, callNo', st', db') →
      (ok = true → db'.depositTxs = db.depositTxs ++ deposits ∧
        (deposits ≠ [] → st'.FinalBlock = toBlock ∧ db'.depositState = st') ∧
        (deposits = [] → st' = st ∧ db' = db)) ∧
      (ok = false →
        ∃ k, db'.depositTxs = db.depositTxs ++ deposits.take (500 * k) ∧
          (k = 0 → db' = db) ∧
          (k ≠ 0 → db'.depositState.FinalBlock = toBlock) ∧
          (st' = st ∨ st'.FinalBlock = toBlock)) := by
  intro n
  induction n with
  | zero =>
    intro deposits hlen callNo st db ok callNo' st' db' heq
    have hnil : deposits = [] := List.length_eq_zero.mp (by omega)
    subst hnil
    simp only [persistFinalizedChunksAux, Prod.mk.injEq] at heq
    obtain ⟨hok, hc, hst, hdb⟩ := heq
    subst hok
    subst hst
    subst hdb
    constructor
    · intro _
      exact ⟨by simp, fun hne => absurd rfl hne, fun _ => ⟨rfl, rfl⟩⟩
    · intro hfalse
      exact absurd hfalse (by simp)
  | succ n ih =>
    intro deposits hlen callNo st db ok callNo' st' db' heq
    cases deposits with
    | nil =>
      simp only [persistFinalizedChunksAux, Prod.mk.injEq] at heq
      obtain ⟨hok, hc, hst, hdb⟩ := heq
      subst hok
      subst hst
      subst hdb
      constructor
      · intro _
        exact ⟨by simp, fun hne => absurd rfl hne, fun _ => ⟨rfl, rfl⟩⟩
      · intro hfalse
        exact absurd hfalse (by simp)
    | cons d rest =>
      simp only [persistFinalizedChunksAux] at heq
      rcases persistFinalizedDepositTxs_spec (outcomes callNo) toBlock
          ((d :: rest).take 500) st db with hsp | hsp | hsp
      · rw [hsp] at heq
        dsimp only at heq
        have hlen' : ((d :: rest).drop 500).length ≤ n := by
          simp only [List.length_drop, List.length_cons] at hlen ⊢
          omega
        obtain ⟨hS, hF⟩ := ih _ hlen' (callNo + 1)
          (advancedState st toBlock) _ ok callNo' st' db' heq
        constructor
        · intro hok
          obtain ⟨hrows, hne', hnil'⟩ := hS hok
          refine ⟨?_, ?_, fun hx => absurd hx (by simp)⟩
          · rw [hrows]
            dsimp only
            rw [List.append_assoc, List.take_append_drop]
          · intro _
            by_cases hd : (d :: rest).drop 500 = []
            · obtain ⟨hst, hdb⟩ := hnil' hd
              constructor
              · rw [hst]
                rfl
              · rw [hdb, hst]
            · exact hne' hd
        · intro hfalse
          obtain ⟨k, hrows, hk0, hkn, hstor⟩ := hF hfalse
          refine ⟨k + 1, ?_, ?_, ?_, ?_⟩
          · rw [hrows]
            dsimp only
            rw [List.append_assoc]
            rw [show 500 * (k + 1) = 500 + 500 * k by ring, List.take_add]
          · intro hk
            exact absurd hk (by simp)
          · intro _
            by_cases hk : k = 0
            · subst hk
              rw [hk0 rfl]
              rfl
            · exact hkn hk
          · rcases hstor with h | h
            · right
              rw [h]
              rfl
            · right
              exact h
      · rw [hsp] at heq
        dsimp only at heq
        simp only [Prod.mk.injEq] at heq
        obtain ⟨hok, hc, hst, hdb⟩ := heq
        subst hok
        subst hst
        subst hdb
        constructor
        · intro htrue
          exact absurd htrue (by simp)
        · intro _
          exact ⟨0, by simp, fun _ => rfl, fun hk => absurd rfl hk, Or.inl rfl⟩
      · rw [hsp] at heq
        dsimp only at heq
        simp only [Prod.mk.injEq] at heq
        obtain ⟨hok, hc, hst, hdb⟩ := heq
        subst hok
        subst hst
        subst hdb
        constructor
        · intro htrue
          exact absurd htrue (by simp)
        · intro _
          exact ⟨0, by simp, fun _ => rfl, fun hk => absurd rfl hk, Or.inr rfl⟩

/-- C1 (amended): persistence and checkpoint advance are atomic per persist
call (each covering at most 500 rows), not per block batch. For the chunked
persist of a batch ending at `toBlock`: on success all rows are committed
and both the in-memory and the durable checkpoint equal `toBlock`; on
failure the committed rows are exactly the first `500·k` (a whole number of
chunks), a wholly-failed batch leaves the durable store untouched, any
partially-committed batch has already durably advanced the checkpoint to
`toBlock`, and the in-memory checkpoint is either untouched or advanced to
`toBlock`. A successful `processFinalizedBatch` leaves both checkpoints at
the batch end `min(FinalBlock + batchSize, finalizedBlockNumber)`. -/
theorem c1_finalized_persist (outcomes : Nat → PersistOutcome)
    (toBlock callNo : Nat) (deposits : List DepositTx)
    (st : DepositIndexerState) (db : ExplorerDB) :
    (((persistFinalizedChunks outcomes toBlock callNo deposits st db).1 = true →
      (persistFinalizedChunks outcomes toBlock callNo deposits st db).2.2.2.depositTxs =
        db.depositTxs ++ deposits ∧
      (deposits ≠ [] →
        (persistFinalizedChunks outcomes toBlock callNo deposits st db).2.2.1.FinalBlock =
          toBlock ∧
        (persistFinalizedChunks outcomes toBlock callNo deposits st db).2.2.2.depositState =
          (persistFinalizedChunks outcomes toBlock callNo deposits st db).2.2.1) ∧
      (deposits = [] →
        (persistFinalizedChunks outcomes toBlock callNo deposits st db).2.2.1 = st ∧
        (persistFinalizedChunks outcomes toBlock callNo deposits st db).2.2.2 = db)) ∧
    ((persistFinalizedChunks outcomes toBlock callNo deposits st db).1 = false →
      ∃ k, (persistFinalizedChunks outcomes toBlock callNo deposits st db).2.2.2.depositTxs =
          db.depositTxs ++ deposits.take (500 * k) ∧
        (k = 0 →
          (persistFinalizedChunks outcomes toBlock callNo deposits st db).2.2.2 = db) ∧
        (k ≠ 0 →
          (persistFinalizedChunks outcomes toBlock callNo deposits st db).2.2.2.depositState.FinalBlock =
            toBlock) ∧
        ((persistFinalizedChunks outcomes toBlock callNo deposits st db).2.2.1 = st ∨
          (persistFinalizedChunks outcomes toBlock callNo deposits st db).2.2.1.FinalBlock =
            toBlock))) ∧
    (∀ (env : IndexerEnv) (finNum callNo₂ : Nat) (st₂ : DepositIndexerState)
      (db₂ : ExplorerDB) (unfin : UnfinMap),
      (processFinalizedBatch env finNum callNo₂ st₂ db₂ unfin).ok = true →
      (processFinalizedBatch env finNum callNo₂ st₂ db₂ unfin).st.FinalBlock =
        min (st₂.FinalBlock + env.batchSize) finNum ∧
      (processFinalizedBatch env finNum callNo₂ st₂ db₂ unfin).db.depositState.FinalBlock =
        min (st₂.FinalBlock + env.batchSize) finNum) := by
  constructor
  · exact c1_chunksAux outcomes toBlock deposits.length deposits le_rfl callNo
      st db (persistFinalizedChunks outcomes toBlock callNo deposits st db).1
      (persistFinalizedChunks outcomes toBlock callNo deposits st db).2.1
      (persistFinalizedChunks outcomes toBlock callNo deposits st db).2.2.1
      (persistFinalizedChunks outcomes toBlock callNo deposits st db).2.2.2 rfl
  · intro env finNum callNo₂ st₂ db₂ unfin hok
    unfold processFinalizedBatch at hok ⊢
    dsimp only at hok ⊢
    cases hfl : env.filterLogsFin (st₂.FinalBlock + 1)
        (min (st₂.FinalBlock + env.batchSize) finNum) with
    | error e =>
      rw [hfl] at hok
      dsimp only at hok
      exact absurd hok (by simp)
    | ok logs =>
      rw [hfl] at hok
      dsimp only at hok ⊢
      cases hbd : buildFinalizedDepositTxs env logs with
      | error e =>
        rw [hbd] at hok
        dsimp only at hok
        exact absurd hok (by simp)
      | ok txs =>
        rw [hbd] at hok
        dsimp only at hok ⊢
        by_cases hl : txs.length > 0
        · rw [if_pos hl] at hok ⊢
          revert hok
          rcases hch : persistFinalizedChunks env.finOutcomes
              (min (st₂.FinalBlock + env.batchSize) finNum) callNo₂ txs st₂ db₂
            with ⟨okc, cc, stc, dbc⟩
          cases okc with
          | false =>
            intro hok
            exact absurd hok (by simp)
          | true =>
            intro _
            have hne : txs ≠ [] := by
              intro hx
              rw [hx] at hl
              simp at hl
            obtain ⟨hS, -⟩ := c1_chunksAux env.finOutcomes
              (min (st₂.FinalBlock + env.batchSize) finNum) txs.length txs
              le_rfl callNo₂ st₂ db₂ true cc stc dbc hch
            obtain ⟨-, hne', -⟩ := hS rfl
            obtain ⟨h1, h2⟩ := hne' hne
            exact ⟨h1, by rw [h2]; exact h1⟩
        · rw [if_neg hl] at hok ⊢
          rcases persistFinalizedDepositTxs_spec (env.finOutcomes callNo₂)
              (min (st₂.FinalBlock + env.batchSize) finNum) [] st₂ db₂
            with hsp | hsp | hsp
          · rw [hsp] at hok ⊢
            dsimp only at hok ⊢
            exact ⟨rfl, rfl⟩
          · rw [hsp] at hok
            dsimp only at hok
            exact absurd hok (by simp)
          · rw [hsp] at hok
            dsimp only at hok
            exact absurd hok (by simp)

def c1WitnessTx : DepositTx :=
  { Index := 3, BlockNumber := 1, BlockTime := 99, BlockRoot := 2,
    PublicKey := [], WithdrawalCredentials := [], Amount := 0,
    Signature := [], Orphaned := false, ForkId := 0, TxHash := 1,
    TxSender := 7, TxTarget := 8, ValidSignature := false }

theorem c1_finalized_persist_witness :
    (persistFinalizedChunks
        (fun _ => { insertFails := false, setStateFails := false }) 5 0
        [c1WitnessTx] { FinalBlock := 0, HeadBlock := 0 }
        { depositTxs := [],
          depositState := { FinalBlock := 0, HeadBlock := 0 } }).2.2.2.depositTxs =
      [c1WitnessTx] ∧
    (persistFinalizedChunks
        (fun _ => { insertFails := false, setStateFails := false }) 5 0
        [c1WitnessTx] { FinalBlock := 0, HeadBlock := 0 }
        { depositTxs := [],
          depositState := { FinalBlock := 0, HeadBlock := 0 } }).2.2.1.FinalBlock =
      5 := by
  obtain ⟨hS, -⟩ := (c1_finalized_persist
    (fun _ => { insertFails := false, setStateFails := false }) 5 0
    [c1WitnessTx] { FinalBlock := 0, HeadBlock := 0 }
    { depositTxs := [],
      depositState := { FinalBlock := 0, HeadBlock := 0 } }).1
  obtain ⟨hrows, hne, -⟩ := hS (by rfl)
  rw [List.nil_append] at hrows
  exact ⟨hrows, (hne (by simp)).1⟩

/-- The deposit-event log used by the C1 counterexample batch. -/
def c1Log : EthLog :=
  { topic0 := 0, txHash := 1, blockNumber := 1, blockHash := 2,
    data := some { pubkey := [], withdrawalCredentials := [],
                   amountBytes := [], signature := [], indexBytes := [] } }

/-- 501 deposit events in one block batch; the second persist call (rows
500..500) fails at row insertion. -/
def c1FailEnv : IndexerEnv :=
  { baseIndexerEnv with
    batchSize := 5,
    filterLogsFin := fun _ _ => .ok (List.replicate 501 c1Log),
    finOutcomes := fun n =>
      if n = 0 then { insertFails := false, setStateFails := false }
      else { insertFails := true, setStateFails := false } }

set_option maxRecDepth 4000 in
/-- C1 counterexample: a batch covering blocks [1, 5] with 501 deposits
whose second 500-row chunk fails to persist leaves the durable checkpoint
(and the in-memory one) already advanced to 5 with only 500 of the 501 rows
committed — the checkpoint has durably advanced past a batch whose deposits
were not all committed, contradicting the claim that a mid-batch
persistence failure leaves `state.FinalBlock` at its pre-batch value. -/
theorem c1_finalized_persist_counterexample :
    (processFinalizedBatch c1FailEnv 5 0 { FinalBlock := 0, HeadBlock := 0 }
        { depositTxs := [],
          depositState := { FinalBlock := 0, HeadBlock := 0 } } []).ok = false ∧
    (processFinalizedBatch c1FailEnv 5 0 { FinalBlock := 0, HeadBlock := 0 }
        { depositTxs := [],
          depositState := { FinalBlock := 0, HeadBlock := 0 } } []).st.FinalBlock = 5 ∧
    (processFinalizedBatch c1FailEnv 5 0 { FinalBlock := 0, HeadBlock := 0 }
        { depositTxs := [],
          depositState := { FinalBlock := 0, HeadBlock := 0 } } []).db.depositState.FinalBlock = 5 ∧
    (processFinalizedBatch c1FailEnv 5 0 { FinalBlock := 0, HeadBlock := 0 }
        { depositTxs := [],
          depositState := { FinalBlock := 0, HeadBlock := 0 } } []).db.depositTxs.length = 500 := by
  decide

/-! ### C3: recent-pass deposit dedup -/

theorem checkDepositValidity_Index (bls : BLSCrypto) (dom : Nat)
    (tx : DepositTx) : (checkDepositValidity bls dom tx).Index = tx.Index := by
  rcases checkDepositValidity_eq_or bls dom tx with h | h <;> rw [h]

theorem checkDepositValidity_BlockRoot (bls : BLSCrypto) (dom : Nat)
    (tx : DepositTx) :
    (checkDepositValidity bls dom tx).BlockRoot = tx.BlockRoot := by
  rcases checkDepositValidity_eq_or bls dom tx with h | h <;> rw [h]

theorem unfinMem_recordDeposit_self (acc : UnfinMap) (tx : DepositTx) :
    unfinMem (recordDeposit acc tx) tx.Index tx.BlockRoot = true := by
  unfold recordDeposit unfinMem
  dsimp only
  rw [lookupA_setA_self]
  by_cases h : ((lookupA acc tx.Index).getD []).contains tx.BlockRoot
  · rw [if_pos h]
    exact h
  · rw [if_neg h]
    simp

theorem unfinMem_recordDeposit_mono (acc : UnfinMap) (tx : DepositTx)
    (i b : Nat) (h : unfinMem acc i b = true) :
    unfinMem (recordDeposit acc tx) i b = true := by
  unfold unfinMem at h ⊢
  unfold recordDeposit
  dsimp only
  by_cases hi : tx.Index = i
  · subst hi
    rw [lookupA_setA_self]
    cases hl : lookupA acc tx.Index with
    | none =>
      rw [hl] at h
      simp at h
    | some hs =>
      rw [hl] at h
      dsimp only at h
      simp only [Option.getD_some]
      by_cases hc : hs.contains tx.BlockRoot = true
      · rw [if_pos hc]
        exact h
      · rw [if_neg hc]
        simp at h ⊢
        exact Or.inl h
  · rw [lookupA_setA_ne _ _ _ _ (fun he => hi he.symm)]
    exact h

theorem unfinMem_foldl_mono (txs : List DepositTx) :
    ∀ (u : UnfinMap) (i b : Nat), unfinMem u i b = true →
      unfinMem (txs.foldl recordDeposit u) i b = true := by
  induction txs with
  | nil =>
    intro u i b h
    exact h
  | cons t rest ih =>
    intro u i b h
    exact ih _ i b (unfinMem_recordDeposit_mono u t i b h)

theorem unfinMem_recordUnfinalized (txs : List DepositTx) (u : UnfinMap)
    (tx : DepositTx) (h : tx ∈ txs) :
    unfinMem (recordUnfinalized u txs) tx.Index tx.BlockRoot = true := by
  unfold recordUnfinalized
  induction txs generalizing u with
  | nil => simp at h
  | cons t rest ih =>
    rcases List.mem_cons.mp h with he | hm
    · subst he
      simp only [List.foldl_cons]
      exact unfinMem_foldl_mono rest _ _ _ (unfinMem_recordDeposit_self u tx)
    · simp only [List.foldl_cons]
      exact ih (recordDeposit u t) hm

theorem buildRecent_skips (env : IndexerEnv) (fork : ForkEnv) (unfin : UnfinMap) :
    ∀ (logs : List EthLog) (memo : Option (Nat × EthTx × EthHeader))
      (acc txs : List DepositTx),
      buildRecentDepositTxsAux env fork unfin logs memo acc = .ok txs →
      ∀ tx ∈ txs, tx ∈ acc ∨ unfinMem unfin tx.Index tx.BlockRoot = false := by
  intro logs
  induction logs with
  | nil =>
    intro memo acc txs heq tx htx
    simp only [buildRecentDepositTxsAux] at heq
    injection heq with heq
    subst heq
    exact Or.inl htx
  | cons log rest ih =>
    intro memo acc txs heq tx htx
    simp only [buildRecentDepositTxsAux] at heq
    by_cases ht : log.topic0 ≠ env.depositEventTopic
    · rw [if_pos ht] at heq
      exact ih memo acc txs heq tx htx
    · rw [if_neg ht] at heq
      cases hd : log.data with
      | none =>
        rw [hd] at heq
        exact Except.noConfusion heq
      | some ev =>
        rw [hd] at heq
        dsimp only at heq
        cases hmb : unfinMem unfin (leUint64 ev.indexBytes) log.blockHash with
        | true =>
          rw [hmb] at heq
          rw [if_pos rfl] at heq
          exact ih memo acc txs heq tx htx
        | false =>
          rw [hmb] at heq
          rw [if_neg (by simp)] at heq
          cases hload : loadTxAndHeader env memo log with
          | error e =>
            rw [hload] at heq
            exact Except.noConfusion heq
          | ok pr =>
            obtain ⟨txd, hdr⟩ := pr
            rw [hload] at heq
            dsimp only at heq
            cases hs : txd.sender with
            | none =>
              rw [hs] at heq
              exact Except.noConfusion heq
            | some sender =>
              rw [hs] at heq
              dsimp only at heq
              rcases ih _ _ txs heq tx htx with hin | hfalse
              · rcases List.mem_append.mp hin with hin' | hin'
                · exact Or.inl hin'
                · right
                  have htxeq : tx = checkDepositValidity env.bls
                      env.depositSigDomain
                      { Index := leUint64 ev.indexBytes,
                        BlockNumber := log.blockNumber,
                        BlockTime := hdr.time,
                        BlockRoot := log.blockHash,
                        PublicKey := ev.pubkey,
                        WithdrawalCredentials := ev.withdrawalCredentials,
                        Amount := leUint64 ev.amountBytes,
                        Signature := ev.signature,
                        Orphaned := true,
                        ForkId :=
                          match env.beaconForkIds log.blockHash with
                          | [] => fork.forkId
                          | fid :: _ => fid,
                        TxHash := log.txHash,
                        TxSender := sender,
                        TxTarget := txd.target,
                        ValidSignature := false } := by
                    simpa using hin'
                  rw [htxeq, checkDepositValidity_Index,
                    checkDepositValidity_BlockRoot]
                  exact hmb
              · exact Or.inr hfalse

/-- C3 (amended): the recent pass's dedup map skips exactly the already
recorded pairs, and records persisted pairs after the batch: a successfully
decoded batch contains no row whose `(index, blockHash)` pair was already in
the dedup map, and after recording, every row's pair is in the map (so the
same pair redelivered in a later attempt or pass yields no second row);
duplicates of a pair within one batch are not deduplicated, since the map is
only updated after the batch's rows are persisted. -/
theorem c3_recent_dedup (env : IndexerEnv) (fork : ForkEnv) (unfin : UnfinMap)
    (logs : List EthLog) (txs : List DepositTx)
    (h : buildRecentDepositTxs env fork unfin logs = .ok txs) :
    (∀ tx ∈ txs, unfinMem unfin tx.Index tx.BlockRoot = false) ∧
    (∀ tx ∈ txs,
      unfinMem (recordUnfinalized unfin txs) tx.Index tx.BlockRoot = true) := by
  constructor
  · intro tx htx
    rcases buildRecent_skips env fork unfin logs none [] txs h tx htx with hin | hf
    · simp at hin
    · exact hf
  · intro tx htx
    exact unfinMem_recordUnfinalized txs unfin tx htx

def c3Log : EthLog :=
  { topic0 := 0, txHash := 1, blockNumber := 1, blockHash := 2,
    data := some { pubkey := [], withdrawalCredentials := [],
                   amountBytes := [], signature := [], indexBytes := [] } }

def c3Fork : ForkEnv :=
  { forkId := 1, clientCount := 1, headBlock := some (some 10) }

/-- The same `(index = 0, blockHash = 2)` deposit event delivered twice in
one recent-pass batch. -/
def c3DupEnv : IndexerEnv :=
  { baseIndexerEnv with
    filterLogsRecent := fun _ attempt _ =>
      if attempt = 0 then .ok [c3Log, c3Log] else .ok [],
    headForks := [c3Fork] }

/-- C3 counterexample: the `(index, blockHash)` pair observed twice within a
single recent-pass batch produces two persisted `DepositTx` rows, because
the dedup map is consulted per log but only updated after the whole batch is
persisted — the claim's "exactly one row" fails for in-batch duplicates. -/
theorem c3_recent_dedup_counterexample :
    (processRecentBlocksForFork c3DupEnv c3Fork
        { FinalBlock := 0, HeadBlock := 0 } []
        { depositTxs := [],
          depositState := { FinalBlock := 0, HeadBlock := 0 } } 0).err = false ∧
    ((processRecentBlocksForFork c3DupEnv c3Fork
        { FinalBlock := 0, HeadBlock := 0 } []
        { depositTxs := [],
          depositState := { FinalBlock := 0, HeadBlock := 0 } } 0).db.depositTxs.countP
      (fun tx => tx.Index == 0 && tx.BlockRoot == 2)) = 2 := by
  constructor <;> rfl

/-- The row the recent pass builds from `c3Log` over an empty dedup map. -/
def c3WitnessTx : DepositTx :=
  { Index := 0, BlockNumber := 1, BlockTime := 99, BlockRoot := 2,
    PublicKey := [], WithdrawalCredentials := [], Amount := 0,
    Signature := [], Orphaned := true, ForkId := 1, TxHash := 1,
    TxSender := 7, TxTarget := 8, ValidSignature := false }

theorem c3_recent_dedup_witness :
    unfinMem [] c3WitnessTx.Index c3WitnessTx.BlockRoot = false ∧
    unfinMem (recordUnfinalized [] [c3WitnessTx]) c3WitnessTx.Index
      c3WitnessTx.BlockRoot = true := by
  obtain ⟨h1, h2⟩ := c3_recent_dedup c3DupEnv c3Fork [] [c3Log] [c3WitnessTx]
    (by rfl)
  exact ⟨h1 c3WitnessTx (by simp), h2 c3WitnessTx (by simp)⟩
